import Mathlib

/-!
# Backtest simulation core — shallow embedding

A Lean embedding of the event-driven backtest simulation of the
`openashare` pipeline: the portfolio (cash / open positions / realized
trade ledger) of `pipeline/backtest/portfolio.py`, the entry/exit policy
of `pipeline/backtest/strategy.py`, the per-day simulation loop of
`BacktestEngine.run` in `pipeline/backtest/engine.py`, and the metrics
summary of `pipeline/backtest/metrics.py`.

Modelling conventions:

* Python `float` prices / cash amounts become `ℚ` (exact arithmetic; the
  source performs only field operations, comparisons and rounding on
  them, apart from the annualized-return power, which no claim touches).
* ISO date strings become `ℤ` day numbers: the loop only iterates dates
  in sorted order and subtracts them (`(d2 - d1).days` on ISO dates is
  exactly integer subtraction of day numbers).
* Python `dict`s (insertion ordered, unique keys) become association
  lists (`List (String × _)`) looked up by first match; entries are
  appended at the end exactly where the source inserts fresh keys, and
  removed by first-match erase where the source `pop`s.
* `int(x)` on a nonnegative/negative float truncates toward zero, which
  `pyInt` reproduces on `ℚ`; `round(x, n)` is Python's round-half-to-even
  at `n` decimal digits, reproduced by `pyRound`.
-/

namespace Backtest

/-- Python `int(x)`: truncation toward zero. -/
def pyInt (q : ℚ) : ℤ :=
  if 0 ≤ q then ⌊q⌋ else ⌈q⌉

/-- Round-half-to-even to the nearest integer, the tie-breaking rule of
Python's built-in `round`. -/
def rhe (q : ℚ) : ℤ :=
  if q - ⌊q⌋ = 1 / 2 then (if 2 ∣ ⌊q⌋ then ⌊q⌋ else ⌊q⌋ + 1) else round q

/-- Python `round(q, nd)`: round-half-to-even at `nd` decimal digits. -/
def pyRound (q : ℚ) (nd : ℕ) : ℚ :=
  (rhe (q * 10 ^ nd) : ℚ) / 10 ^ nd

/-- One day's price bar for one instrument: the `{"open": …, "close": …}`
record of `BacktestEngine._build_price_lookup`.  (`open` is a Lean keyword,
hence the `b` prefixes.) -/
structure Bar where
  bopen : ℚ
  bclose : ℚ
  deriving DecidableEq

/-- `pipeline/backtest/models.py` `Position`. -/
structure Position where
  code : String
  name : String
  entry_date : ℤ
  entry_price : ℚ
  shares : ℤ
  deriving DecidableEq

/-- `pipeline/backtest/models.py` `Trade`. -/
structure Trade where
  code : String
  name : String
  entry_date : ℤ
  entry_price : ℚ
  exit_date : ℤ
  exit_price : ℚ
  shares : ℤ
  deriving DecidableEq

/-- `Trade.pnl`. -/
def Trade.pnl (t : Trade) : ℚ :=
  (t.exit_price - t.entry_price) * (t.shares : ℚ)

/-- `Trade.return_pct`: `(exit − entry)/entry × 100`, `0` on a zero entry
price. -/
def Trade.return_pct (t : Trade) : ℚ :=
  if t.entry_price = 0 then 0
  else (t.exit_price - t.entry_price) / t.entry_price * 100

/-- `Trade.holding_days`: exit date minus entry date in calendar days. -/
def Trade.holding_days (t : Trade) : ℤ :=
  t.exit_date - t.entry_date

/-- `pipeline/backtest/models.py` `PendingSignal`. -/
structure PendingSignal where
  code : String
  name : String
  signal_date : ℤ
  days_waited : ℤ
  deriving DecidableEq

/-- First-match association-list lookup: Python `dict[key]` /
`key in dict`. -/
def alookup {α : Type} : List (String × α) → String → Option α
  | [], _ => none
  | kv :: t, c => if kv.1 = c then some kv.2 else alookup t c

/-- First-match erase: Python `dict.pop(key, None)`'s removal. -/
def aerase {α : Type} (l : List (String × α)) (c : String) : List (String × α) :=
  l.eraseP (fun kv => kv.1 == c)

/-- `pipeline/backtest/portfolio.py` `Portfolio` state. -/
structure Portfolio where
  initial_capital : ℚ
  cash : ℚ
  positions : List (String × Position)
  closed_trades : List Trade
  deriving DecidableEq

/-- `Portfolio.__init__`. -/
def Portfolio.init (initial_capital : ℚ) : Portfolio :=
  ⟨initial_capital, initial_capital, [], []⟩

/-- `Portfolio.has_position`: `code in self.positions`. -/
def Portfolio.has_position (p : Portfolio) (code : String) : Bool :=
  (alookup p.positions code).isSome

/-- `Portfolio.buy`: no-op when a position exists; shares are
`int(amount / price / 100) * 100`; no-op when shares ≤ 0 or the cost
exceeds cash; otherwise debit cash and record the position. -/
def Portfolio.buy (p : Portfolio) (code name : String) (price : ℚ) (date : ℤ)
    (amount : ℚ) : Portfolio :=
  if p.has_position code then p
  else
    let shares := pyInt (amount / price / 100) * 100
    if shares ≤ 0 then p
    else
      let cost := (shares : ℚ) * price
      if p.cash < cost then p
      else
        { p with
          cash := p.cash - cost
          positions := p.positions ++ [(code, ⟨code, name, date, price, shares⟩)] }

/-- `Portfolio.sell`: no-op when no position exists; otherwise credit the
proceeds, drop the position and append the closed `Trade`. -/
def Portfolio.sell (p : Portfolio) (code : String) (price : ℚ) (date : ℤ) :
    Portfolio :=
  match alookup p.positions code with
  | none => p
  | some pos =>
    { p with
      cash := p.cash + (pos.shares : ℚ) * price
      positions := aerase p.positions code
      closed_trades := p.closed_trades ++
        [⟨pos.code, pos.name, pos.entry_date, pos.entry_price, date, price, pos.shares⟩] }

/-- `Portfolio.get_nav`: cash plus mark-to-market position value, falling
back to the entry price when no market price is given. -/
def Portfolio.get_nav (p : Portfolio) (market_prices : List (String × ℚ)) : ℚ :=
  p.cash +
    (p.positions.map
      (fun kv => (kv.2.shares : ℚ) * ((alookup market_prices kv.1).getD kv.2.entry_price))).sum

/-- `pipeline/backtest/strategy.py` `EntryExitStrategy` parameters. -/
structure EntryExitStrategy where
  entry_window : ℤ
  take_profit_pct : ℚ
  stop_loss_pct : ℚ
  max_hold_days : ℤ
  deriving DecidableEq

/-- `EntryExitStrategy.is_bearish_candle`: close < open. -/
def EntryExitStrategy.is_bearish_candle (_s : EntryExitStrategy) (row : Bar) : Bool :=
  row.bclose < row.bopen

/-- `EntryExitStrategy.should_exit`: no exit on a nonpositive entry price;
otherwise exit when the return percentage reaches the take-profit line, or
when stop-loss is enabled and it falls to the stop-loss line. -/
def EntryExitStrategy.should_exit (s : EntryExitStrategy) (close entry_price : ℚ) :
    Bool :=
  if entry_price ≤ 0 then false
  else
    let return_pct := (close - entry_price) / entry_price * 100
    if return_pct ≥ s.take_profit_pct then true
    else if s.stop_loss_pct > 0 ∧ return_pct ≤ -s.stop_loss_pct then true
    else false

/-- The engine parameters of `BacktestEngine.__init__` that the simulation
loop reads (the factor/combination machinery and the string date clipping
are out of the simulated core: the loop receives the already-built trading
dates, price lookup and signal map). -/
structure BacktestEngine where
  initial_capital : ℚ
  entry_window : ℤ
  take_profit_pct : ℚ
  max_hold_days : ℤ
  stop_loss_pct : ℚ
  deriving DecidableEq

/-- The `EntryExitStrategy` that `BacktestEngine.__init__` constructs from
its own parameters. -/
def BacktestEngine.strategy (e : BacktestEngine) : EntryExitStrategy :=
  ⟨e.entry_window, e.take_profit_pct, e.stop_loss_pct, e.max_hold_days⟩

/-- The per-instrument, per-date price lookup
(`BacktestEngine._build_price_lookup`): `none` models an absent bar. -/
abbrev PriceLookup := String → ℤ → Option Bar

/-- The precomputed signal map (`BacktestEngine._detect_all_signals`):
date ↦ list of (code, display name). -/
abbrev SignalMap := ℤ → List (String × String)

/-- The mutable state of the `BacktestEngine.run` simulation loop. -/
structure SimState where
  portfolio : Portfolio
  pending : List (String × PendingSignal)
  nav_history : List (ℤ × ℚ)
  deriving DecidableEq

/-- The loop's starting state: a fresh portfolio, empty pending registry,
empty NAV history. -/
def initState (cap : ℚ) : SimState :=
  ⟨Portfolio.init cap, [], []⟩

/-- Step (a) collection: the `codes_to_sell` list — for each open position
with a bar today, sell at today's close when `should_exit` fires, else when
the max-hold-days cap is enabled and reached. -/
def exitList (eng : BacktestEngine) (lookup : PriceLookup) (p : Portfolio)
    (date : ℤ) : List (String × ℚ) :=
  p.positions.filterMap fun kv =>
    match lookup kv.1 date with
    | none => none
    | some row =>
      if eng.strategy.should_exit row.bclose kv.2.entry_price then
        some (kv.1, row.bclose)
      else if 0 < eng.max_hold_days ∧ eng.max_hold_days ≤ date - kv.2.entry_date then
        some (kv.1, row.bclose)
      else none

/-- Step (a): execute all of today's collected exits. -/
def stepExits (eng : BacktestEngine) (lookup : PriceLookup) (s : SimState)
    (date : ℤ) : SimState :=
  { s with
    portfolio :=
      (exitList eng lookup s.portfolio date).foldl
        (fun p cp => p.sell cp.1 cp.2 date) s.portfolio }

/-- The `sig.days_waited += 1` mutation applied to every pending signal as
the step (b) loop visits it. -/
def bump (sig : PendingSignal) : PendingSignal :=
  { sig with days_waited := sig.days_waited + 1 }

/-- Step (b) per-signal entry test: when today's bar exists and is a
bearish candle, the signal enters today at today's close. -/
def entryOf (eng : BacktestEngine) (lookup : PriceLookup) (date : ℤ)
    (kv : String × PendingSignal) : Option (String × String × ℚ) :=
  match lookup kv.1 date with
  | some row =>
    if eng.strategy.is_bearish_candle row then some (kv.1, kv.2.name, row.bclose)
    else none
  | none => none

/-- Step (b) collection: today's `entries_today`. -/
def entriesToday (eng : BacktestEngine) (lookup : PriceLookup) (date : ℤ)
    (pending : List (String × PendingSignal)) : List (String × String × ℚ) :=
  (pending.map (fun kv => (kv.1, bump kv.2))).filterMap (entryOf eng lookup date)

/-- Step (b) survivors: pending signals that neither entered today nor
expired (`days_waited > entry_window` is only tested when the entry test
failed). Entered signals are `pop`ped, expired ones dropped. -/
def pendingAfter (eng : BacktestEngine) (lookup : PriceLookup) (date : ℤ)
    (pending : List (String × PendingSignal)) : List (String × PendingSignal) :=
  (pending.map (fun kv => (kv.1, bump kv.2))).filter
    (fun kv => (entryOf eng lookup date kv).isNone && decide (kv.2.days_waited ≤ eng.entry_window))

/-- Step (b) entry execution: when any instrument enters today, split the
*current* cash equally (`per_stock = cash / N`, computed once) and buy each
entrant at its entry price with that fixed allocation. -/
def execEntries (p : Portfolio) (entries : List (String × String × ℚ)) (date : ℤ) :
    Portfolio :=
  if entries.isEmpty then p
  else
    let per_stock := p.cash / (entries.length : ℚ)
    entries.foldl (fun q e => q.buy e.1 e.2.1 e.2.2 date per_stock) p

/-- Step (b): advance the pending queue and execute today's entries. -/
def stepEntries (eng : BacktestEngine) (lookup : PriceLookup) (s : SimState)
    (date : ℤ) : SimState :=
  { s with
    portfolio := execEntries s.portfolio (entriesToday eng lookup date s.pending) date
    pending := pendingAfter eng lookup date s.pending }

/-- Step (c) single admission: a fresh signal joins the pending registry
only when the instrument holds no open position and has no pending entry. -/
def admitOne (date : ℤ) (st : SimState) (cn : String × String) : SimState :=
  if st.portfolio.has_position cn.1 = false ∧ alookup st.pending cn.1 = none then
    { st with pending := st.pending ++ [(cn.1, ⟨cn.1, cn.2, date, 0⟩)] }
  else st

/-- Step (c): admit today's fresh signals in order. -/
def stepSignals (sigs : List (String × String)) (s : SimState) (date : ℤ) :
    SimState :=
  sigs.foldl (admitOne date) s

/-- Step (d): append today's NAV, marking positions at today's close where
a bar exists. -/
def stepNav (lookup : PriceLookup) (s : SimState) (date : ℤ) : SimState :=
  let market_prices :=
    s.portfolio.positions.filterMap
      (fun kv => (lookup kv.1 date).map (fun row => (kv.1, row.bclose)))
  { s with nav_history := s.nav_history ++ [(date, s.portfolio.get_nav market_prices)] }

/-- One trading day of `BacktestEngine.run`: exits, then pending
advancement / entry execution, then new-signal admission, then the NAV
snapshot. -/
def simDay (eng : BacktestEngine) (lookup : PriceLookup) (signals : SignalMap)
    (s : SimState) (date : ℤ) : SimState :=
  stepNav lookup (stepSignals (signals date) (stepEntries eng lookup (stepExits eng lookup s date) date) date) date

/-- The day loop of `BacktestEngine.run` over a trading-date list. -/
def runDays (eng : BacktestEngine) (lookup : PriceLookup) (signals : SignalMap)
    (s : SimState) (dates : List ℤ) : SimState :=
  dates.foldl (simDay eng lookup signals) s

/-- The post-loop forced liquidation: every remaining position with a bar
on the last trading date is sold at that date's close. -/
def forceClose (lookup : PriceLookup) (s : SimState) (last_date : ℤ) : SimState :=
  { s with
    portfolio :=
      s.portfolio.positions.foldl
        (fun p kv =>
          match lookup kv.1 last_date with
          | some row => p.sell kv.1 row.bclose last_date
          | none => p) s.portfolio }

/-! ## Metrics (`pipeline/backtest/metrics.py`) -/

/-- The winning trades: return percentage strictly positive. -/
def winners (trades : List Trade) : List Trade :=
  trades.filter (fun t => decide (0 < Trade.return_pct t))

/-- The losing trades: return percentage ≤ 0. -/
def losersOf (trades : List Trade) : List Trade :=
  trades.filter (fun t => decide (Trade.return_pct t ≤ 0))

/-- `avg_win`: mean winner return, `0` with no winners. -/
def avgWin (trades : List Trade) : ℚ :=
  let w := winners trades
  if w.isEmpty then 0 else ((w.map Trade.return_pct).sum) / (w.length : ℚ)

/-- `avg_loss`: absolute mean loser return, `0` with no losers. -/
def avgLoss (trades : List Trade) : ℚ :=
  let l := losersOf trades
  if l.isEmpty then 0 else |((l.map Trade.return_pct).sum) / (l.length : ℚ)|

/-- One iteration of the max-drawdown loop: raise the running peak, then
raise the running maximum drawdown. -/
def ddStep (pm : ℚ × ℚ) (nav : ℚ) : ℚ × ℚ :=
  let peak := if pm.1 < nav then nav else pm.1
  let dd := (peak - nav) / peak * 100
  (peak, if pm.2 < dd then dd else pm.2)

/-- The max-drawdown fold of `calc_metrics`, before rounding: running peak
initialized to the initial capital, running maximum to `0`. -/
def maxDDraw (nav_history : List (ℤ × ℚ)) (initial_capital : ℚ) : ℚ :=
  ((nav_history.map Prod.snd).foldl ddStep (initial_capital, 0)).2

/-- Maximum of a list of rationals (Python `max` over a nonempty list;
`0` on `[]`, unused). -/
def qmax : List ℚ → ℚ
  | [] => 0
  | h :: t => t.foldl max h

/-- Minimum of a list of rationals (Python `min` over a nonempty list;
`0` on `[]`, unused). -/
def qmin : List ℚ → ℚ
  | [] => 0
  | h :: t => t.foldl min h

/-- The metrics dictionary built by `calc_metrics`.  The trade-statistics
entries are present (`some`) exactly when the trade list is nonempty; the
profit/loss entry carries `⊤ : WithTop ℚ` for Python's `float("inf")`.
The `annualized_return_pct` entry is omitted from the model: it is the one
value computed with a real (non-rational) power, and no claim concerns it.
-/
structure Metrics where
  total_return_pct : ℚ
  max_drawdown_pct : ℚ
  total_trades : ℕ
  win_rate_pct : Option ℚ
  profit_loss : Option (WithTop ℚ)
  avg_holding_days : Option ℚ
  max_win_pct : Option ℚ
  max_loss_pct : Option ℚ
  deriving DecidableEq

/-- `calc_metrics`: `none` on an empty NAV history; otherwise the rounded
summary of total return, max drawdown and trade statistics. -/
def calcMetrics (trades : List Trade) (nav_history : List (ℤ × ℚ))
    (initial_capital : ℚ) : Option Metrics :=
  if nav_history.isEmpty then none
  else
    let final_nav := (nav_history.getLastD (0, 0)).2
    some
      { total_return_pct := pyRound ((final_nav - initial_capital) / initial_capital * 100) 2
        max_drawdown_pct := pyRound (maxDDraw nav_history initial_capital) 2
        total_trades := trades.length
        win_rate_pct :=
          if trades.isEmpty then none
          else some (pyRound (((winners trades).length : ℚ) / (trades.length : ℚ) * 100) 2)
        profit_loss :=
          if trades.isEmpty then none
          else
            some (if 0 < avgLoss trades then
                    ((pyRound (avgWin trades / avgLoss trades) 2 : ℚ) : WithTop ℚ)
                  else (⊤ : WithTop ℚ))
        avg_holding_days :=
          if trades.isEmpty then none
          else some (pyRound ((trades.map (fun t => (Trade.holding_days t : ℚ))).sum / (trades.length : ℚ)) 1)
        max_win_pct :=
          if trades.isEmpty then none
          else some (pyRound (qmax (trades.map Trade.return_pct)) 2)
        max_loss_pct :=
          if trades.isEmpty then none
          else some (pyRound (qmin (trades.map Trade.return_pct)) 2) }

/-! ## Call-sequence model for the cash-conservation claim -/

/-- One `Portfolio` method call. -/
inductive PortfolioOp where
  | buyOp (code name : String) (price : ℚ) (date : ℤ) (amount : ℚ)
  | sellOp (code : String) (price : ℚ) (date : ℤ)
  deriving DecidableEq

/-- Apply one call. -/
def applyOp (p : Portfolio) : PortfolioOp → Portfolio
  | .buyOp code name price date amount => p.buy code name price date amount
  | .sellOp code price date => p.sell code price date

/-- Apply a call sequence in order. -/
def applyOps (p : Portfolio) (ops : List PortfolioOp) : Portfolio :=
  ops.foldl applyOp p

/-- The cash a call debits as an executed buy: the buy's cost when every
`Portfolio.buy` guard passes in state `p`, else `0`. -/
def opBuyCost (p : Portfolio) : PortfolioOp → ℚ
  | .buyOp code _ price _ amount =>
    if p.has_position code then 0
    else
      let shares := pyInt (amount / price / 100) * 100
      if shares ≤ 0 then 0
      else if p.cash < (shares : ℚ) * price then 0
      else (shares : ℚ) * price
  | .sellOp _ _ _ => 0

/-- The cash a call credits as an executed sell: the open position's
shares times the sell price, `0` when no position exists. -/
def opSellProceeds (p : Portfolio) : PortfolioOp → ℚ
  | .sellOp code price _ =>
    match alookup p.positions code with
    | some pos => (pos.shares : ℚ) * price
    | none => 0
  | .buyOp _ _ _ _ _ => 0

/-- `Σ(buys)`: total cost of the executed buys along a call sequence. -/
def buysTotal : Portfolio → List PortfolioOp → ℚ
  | _, [] => 0
  | p, op :: t => opBuyCost p op + buysTotal (applyOp p op) t

/-- `Σ(sells)`: total proceeds of the executed sells along a call
sequence. -/
def sellsTotal : Portfolio → List PortfolioOp → ℚ
  | _, [] => 0
  | p, op :: t => opSellProceeds p op + sellsTotal (applyOp p op) t

/-- A call is a sell at a nonnegative price, or any buy. -/
def sellNonneg : PortfolioOp → Prop
  | .sellOp _ price _ => 0 ≤ price
  | .buyOp _ _ _ _ _ => True

/-! ## Spec-side definitions (for refinement comparisons only) -/

/-- The spec's description of `Portfolio.buy`: share count
`floor(cash_allocation / price / lot_size) × lot_size`, no-op when the
share count is ≤ 0 or the cost exceeds available cash (or a position
already exists). -/
def buySpec (p : Portfolio) (code name : String) (price : ℚ) (date : ℤ)
    (amount : ℚ) : Portfolio :=
  let sh : ℤ := ⌊amount / price / 100⌋ * 100
  let cost : ℚ := (sh : ℚ) * price
  if p.has_position code ∨ sh ≤ 0 ∨ p.cash < cost then p
  else
    { p with
      cash := p.cash - cost
      positions := p.positions ++ [(code, ⟨code, name, date, price, sh⟩)] }

/-- The spec's drawdown series: for each NAV observation, the drawdown
from the running peak (peak initialized to the initial capital). -/
def ddList : List ℚ → ℚ → List ℚ
  | [], _ => []
  | n :: t, peak =>
    let pk := max peak n
    ((pk - n) / pk * 100) :: ddList t pk

/-- The spec's max drawdown: the maximum of the drawdown series (`0` when
every drawdown is `0`, matching the loop's starting maximum). -/
def specMaxDD (navs : List ℚ) (initial_capital : ℚ) : ℚ :=
  (ddList navs initial_capital).foldl max 0

/-- `Portfolio.buy` with the insufficient-cash rejection branch deleted.
That branch is unreachable in a context exactly when replacing `buy` by
this function cannot change the outcome (an executed unchecked buy always
appends a position, so the two differ whenever the branch fires). -/
def Portfolio.buyU (p : Portfolio) (code name : String) (price : ℚ) (date : ℤ)
    (amount : ℚ) : Portfolio :=
  if p.has_position code then p
  else
    let shares := pyInt (amount / price / 100) * 100
    if shares ≤ 0 then p
    else
      let cost := (shares : ℚ) * price
      { p with
        cash := p.cash - cost
        positions := p.positions ++ [(code, ⟨code, name, date, price, shares⟩)] }

/-- The entry-execution step built on the unchecked buy. -/
def execEntriesU (p : Portfolio) (entries : List (String × String × ℚ)) (date : ℤ) :
    Portfolio :=
  if entries.isEmpty then p
  else
    let per_stock := p.cash / (entries.length : ℚ)
    entries.foldl (fun q e => q.buyU e.1 e.2.1 e.2.2 date per_stock) p

/-- "No entry bar": on day `d` the instrument either has no bar, or its
bar is not a bearish candle. -/
def noEntryBar (eng : BacktestEngine) (lookup : PriceLookup) (code : String)
    (d : ℤ) : Prop :=
  ∀ row : Bar, lookup code d = some row → eng.strategy.is_bearish_candle row = false

/-- Boolean form of "day `d` has a bearish candle for `code`". -/
def bearishOn (eng : BacktestEngine) (lookup : PriceLookup) (code : String)
    (d : ℤ) : Bool :=
  match lookup code d with
  | some row => eng.strategy.is_bearish_candle row
  | none => false

/-- Concrete scenario refuting the five-day entry-window reading:
`entry_window = 5`, and instrument "A" signals on day 0. -/
def engX : BacktestEngine := ⟨100000, 5, 10, 0, 0⟩

/-- Prices for the scenario: days 1–5 are doji bars (close = open, not
bearish), day 6 is bearish (open 11, close 10), no other bars. -/
def lkX : PriceLookup := fun c d =>
  if c = "A" then
    (if 1 ≤ d ∧ d ≤ 5 then some ⟨10, 10⟩ else if d = 6 then some ⟨11, 10⟩ else none)
  else none

/-- Signals for the scenario: a single signal for "A" on day 0. -/
def sgX : SignalMap := fun d => if d = 0 then [("A", "Astock")] else []

/-- The open-position keys. -/
def posKeys (p : Portfolio) : List String :=
  p.positions.map Prod.fst

/-- The pending-registry keys. -/
def pendKeys (s : SimState) : List String :=
  s.pending.map Prod.fst

/-- The at-most-one-slot-per-instrument invariant: position keys and
pending keys are each duplicate-free, and no instrument is in both. -/
def AtMostOne (s : SimState) : Prop :=
  (posKeys s.portfolio).Nodup ∧ (pendKeys s).Nodup ∧
    ∀ c, c ∈ posKeys s.portfolio → c ∉ pendKeys s

/-! ## Basic lemmas -/

theorem pyInt_eq_floor {q : ℚ} (h : 0 ≤ q) : pyInt q = ⌊q⌋ := by
  simp [pyInt, h]

theorem pyInt_nonpos {q : ℚ} (h : q ≤ 0) : pyInt q ≤ 0 := by
  unfold pyInt
  split_ifs with h0
  · exact Int.floor_nonpos h
  · exact Int.ceil_le.mpr (by exact_mod_cast h)

theorem alookup_mem {α : Type} {l : List (String × α)} {c : String} {v : α}
    (h : alookup l c = some v) : (c, v) ∈ l := by
  induction l with
  | nil => simp [alookup] at h
  | cons kv t ih =>
    rw [alookup] at h
    split_ifs at h with hc
    · obtain rfl : kv.2 = v := by injection h
      obtain ⟨k1, k2⟩ := kv
      simp only at hc
      subst hc
      exact List.mem_cons_self _ _
    · exact List.mem_cons_of_mem _ (ih h)

theorem alookup_eq_none {α : Type} {l : List (String × α)} {c : String} :
    alookup l c = none ↔ c ∉ l.map Prod.fst := by
  induction l with
  | nil => simp [alookup]
  | cons kv t ih =>
    rw [alookup]
    split_ifs with hc
    · subst hc
      simp
    · simp only [List.map_cons, List.mem_cons, not_or, ih]
      exact ⟨fun h => ⟨fun e => hc e.symm, h⟩, fun h => h.2⟩

theorem alookup_isSome {α : Type} {l : List (String × α)} {c : String} :
    (alookup l c).isSome = true ↔ c ∈ l.map Prod.fst := by
  rcases h : alookup l c with _ | v
  · simpa [h] using (alookup_eq_none.mp h)
  · simp only [Option.isSome_some, true_iff]
    exact List.mem_map.mpr ⟨(c, v), alookup_mem h, rfl⟩

/-! ## C5: `should_exit` characterization -/

/-- C5. `should_exit(close, entry)` is true iff the entry price is
positive and the return percentage reaches the take-profit line or (with
stop-loss enabled) falls to the stop-loss line; with the default 10%
take-profit, `should_exit(11.0, 10.0)` is true, `should_exit(10.9, 10.0)`
is false. -/
theorem c5_should_exit_iff :
    (∀ (s : EntryExitStrategy) (close entry : ℚ),
      EntryExitStrategy.should_exit s close entry = true ↔
        (0 < entry ∧
          ((close - entry) / entry * 100 ≥ s.take_profit_pct ∨
            (0 < s.stop_loss_pct ∧ (close - entry) / entry * 100 ≤ -s.stop_loss_pct))))
    ∧ EntryExitStrategy.should_exit ⟨5, 10, 0, 0⟩ 11 10 = true
    ∧ EntryExitStrategy.should_exit ⟨5, 10, 0, 0⟩ (10.9 : ℚ) 10 = false := by
  refine ⟨?_, by norm_num [EntryExitStrategy.should_exit],
    by norm_num [EntryExitStrategy.should_exit]⟩
  intro s c e
  by_cases h1 : e ≤ 0
  · simp only [EntryExitStrategy.should_exit, if_pos h1, Bool.false_eq_true, false_iff,
      not_and, not_or]
    intro he
    exact absurd h1 (not_le.mpr he)
  · have he : 0 < e := not_le.mp h1
    by_cases h2 : (c - e) / e * 100 ≥ s.take_profit_pct
    · simp [EntryExitStrategy.should_exit, h1, h2, he]
    · by_cases h3 : 0 < s.stop_loss_pct ∧ (c - e) / e * 100 ≤ -s.stop_loss_pct
      · simp [EntryExitStrategy.should_exit, h1, h2, h3, he]
      · simp [EntryExitStrategy.should_exit, h1, h2, h3, he]

/-! ## C6: lot rounding and no-op conditions of `Portfolio.buy` -/

/-- C6. With positive price and allocation, `Portfolio.buy` behaves as the
spec describes: shares `= ⌊amount / price / 100⌋ * 100`, a no-op exactly
when a position exists, the share count is ≤ 0 or the cost exceeds cash;
and `buy(price=33, allocation=50000)` buys exactly 1500 shares. -/
theorem c6_lot_rounding :
    (∀ (p : Portfolio) (code name : String) (price : ℚ) (date : ℤ) (amount : ℚ),
      0 < price → 0 < amount →
        Portfolio.buy p code name price date amount = buySpec p code name price date amount)
    ∧ (alookup ((Portfolio.init 1000000).buy "600000" "X" 33 0 50000).positions
        "600000").map Position.shares = some 1500 := by
  constructor
  · intro p code name price date amount hp ha
    have hq : (0 : ℚ) ≤ amount / price / 100 := by positivity
    simp only [Portfolio.buy, buySpec, pyInt_eq_floor hq]
    split_ifs with h1 h2 h3 h4 h5 <;> first | rfl | tauto
  · norm_num [Portfolio.init, Portfolio.buy, Portfolio.has_position, alookup, pyInt,
      Int.floor_eq_iff]

/-! ## C1: cash conservation -/

theorem cash_applyOp (p : Portfolio) (op : PortfolioOp) :
    (applyOp p op).cash = p.cash - opBuyCost p op + opSellProceeds p op := by
  cases op with
  | buyOp code name price date amount =>
    simp only [applyOp, Portfolio.buy, opBuyCost, opSellProceeds]
    split_ifs <;> ring
  | sellOp code price date =>
    simp only [applyOp, Portfolio.sell, opBuyCost, opSellProceeds]
    rcases h : alookup p.positions code with _ | pos <;> simp [h]

theorem cash_applyOps (ops : List PortfolioOp) :
    ∀ p : Portfolio,
      (applyOps p ops).cash = p.cash - buysTotal p ops + sellsTotal p ops := by
  induction ops with
  | nil => intro p; simp [applyOps, buysTotal, sellsTotal]
  | cons op t ih =>
    intro p
    have hstep : applyOps p (op :: t) = applyOps (applyOp p op) t := rfl
    rw [hstep, ih (applyOp p op), buysTotal, sellsTotal, cash_applyOp]
    ring

/-- The state invariant behind cash nonnegativity: nonnegative cash and
positive share counts in every open position. -/
def GoodP (p : Portfolio) : Prop :=
  0 ≤ p.cash ∧ ∀ kv ∈ p.positions, 0 < kv.2.shares

theorem goodP_applyOp {p : Portfolio} {op : PortfolioOp} (hg : GoodP p)
    (hs : sellNonneg op) : GoodP (applyOp p op) := by
  obtain ⟨hc, hpos⟩ := hg
  cases op with
  | buyOp code name price date amount =>
    simp only [applyOp, Portfolio.buy]
    split_ifs with h1 h2 h3
    · exact ⟨hc, hpos⟩
    · exact ⟨hc, hpos⟩
    · exact ⟨hc, hpos⟩
    · refine ⟨by simpa using sub_nonneg.mpr (not_lt.mp h3), ?_⟩
      intro kv hkv
      rcases List.mem_append.mp hkv with hkv | hkv
      · exact hpos kv hkv
      · simp only [List.mem_singleton] at hkv
        subst hkv
        simpa using not_le.mp h2
  | sellOp code price date =>
    simp only [applyOp, Portfolio.sell]
    rcases h : alookup p.positions code with _ | pos
    · exact ⟨hc, hpos⟩
    · have hmem := alookup_mem h
      have hsh : 0 < pos.shares := hpos (code, pos) hmem
      have hpr : 0 ≤ price := hs
      refine ⟨?_, ?_⟩
      · have : (0 : ℚ) ≤ (pos.shares : ℚ) * price :=
          mul_nonneg (by exact_mod_cast hsh.le) hpr
        simpa using add_nonneg hc this
      · intro kv hkv
        exact hpos kv (List.mem_of_mem_eraseP hkv)

theorem goodP_applyOps : ∀ (ops : List PortfolioOp) (p : Portfolio), GoodP p →
    (∀ op ∈ ops, sellNonneg op) → GoodP (applyOps p ops) := by
  intro ops
  induction ops with
  | nil => intro p hg _; exact hg
  | cons op t ih =>
    intro p hg hs
    exact ih (applyOp p op) (goodP_applyOp hg (hs op (List.mem_cons_self _ _)))
      (fun o ho => hs o (List.mem_cons_of_mem _ ho))

/-- C1 (amended). Starting from a fresh portfolio with nonnegative capital,
any `buy`/`sell` call sequence leaves
`cash = capital − Σ(executed buys) + Σ(executed sells)`; and provided every
sell is at a nonnegative price, cash is nonnegative after every prefix of
the sequence.  (Without that proviso the second part is false: see the
counterexample.) -/
theorem c1_cash_conservation :
    ∀ (cap : ℚ) (ops : List PortfolioOp), 0 ≤ cap →
      (applyOps (Portfolio.init cap) ops).cash
          = cap - buysTotal (Portfolio.init cap) ops + sellsTotal (Portfolio.init cap) ops
        ∧ ((∀ op ∈ ops, sellNonneg op) →
            ∀ k : ℕ, 0 ≤ (applyOps (Portfolio.init cap) (ops.take k)).cash) := by
  intro cap ops hcap
  refine ⟨cash_applyOps ops (Portfolio.init cap), ?_⟩
  intro hs k
  have hg : GoodP (Portfolio.init cap) :=
    ⟨hcap, by intro kv hkv; simp [Portfolio.init] at hkv⟩
  exact (goodP_applyOps (ops.take k) _ hg
    (fun o ho => hs o (List.take_subset k ops ho))).1

/-- Witness for C1: a concrete two-call sequence (buy 100 shares at 10,
sell them at 12). -/
theorem c1_cash_conservation_witness :
    (applyOps (Portfolio.init 1000)
        [.buyOp "A" "A" 10 0 1000, .sellOp "A" 12 1]).cash
        = 1000 - buysTotal (Portfolio.init 1000) [.buyOp "A" "A" 10 0 1000, .sellOp "A" 12 1]
            + sellsTotal (Portfolio.init 1000) [.buyOp "A" "A" 10 0 1000, .sellOp "A" 12 1]
      ∧ 0 ≤ (applyOps (Portfolio.init 1000)
          ([PortfolioOp.buyOp "A" "A" 10 0 1000, .sellOp "A" 12 1].take 1)).cash := by
  have h := c1_cash_conservation 1000 [.buyOp "A" "A" 10 0 1000, .sellOp "A" 12 1]
    (by norm_num)
  refine ⟨h.1, h.2 ?_ 1⟩
  intro op hop
  rcases List.mem_cons.mp hop with rfl | hop
  · simp [sellNonneg]
  · rcases List.mem_cons.mp hop with rfl | hop
    · simp [sellNonneg]
    · simp at hop

/-- C1 counterexample: from a nonnegative starting balance, a buy at a
negative price (which the share rounding and cash guard both accept, and
which *credits* cash) followed by a sell of the resulting position at a
negative price drives the cash balance to −800 < 0. -/
theorem c1_counterexample :
    0 ≤ (Portfolio.init 100).cash ∧
    (applyOps (Portfolio.init 100)
        [.buyOp "A" "A" (-1) 0 (-100), .sellOp "A" (-10) 1]).cash < 0 := by
  constructor
  · norm_num [Portfolio.init]
  · norm_num [applyOps, applyOp, Portfolio.init, Portfolio.buy, Portfolio.sell,
      Portfolio.has_position, alookup, aerase, pyInt, List.foldl_cons, List.foldl_nil,
      List.eraseP_cons]

/-- Witness for C6: the general part applied at price 33 and allocation
50000. -/
theorem c6_lot_rounding_witness :
    Portfolio.buy (Portfolio.init 1000000) "600000" "X" 33 0 50000
      = buySpec (Portfolio.init 1000000) "600000" "X" 33 0 50000 :=
  c6_lot_rounding.1 (Portfolio.init 1000000) "600000" "X" 33 0 50000
    (by norm_num) (by norm_num)

/-! ## C7: max drawdown -/

theorem ddStep_eq (pm : ℚ × ℚ) (nav : ℚ) :
    ddStep pm nav =
      (max pm.1 nav, max pm.2 ((max pm.1 nav - nav) / max pm.1 nav * 100)) := by
  have hpk : (if pm.1 < nav then nav else pm.1) = max pm.1 nav := by
    by_cases h : pm.1 < nav
    · simp [h, max_eq_right h.le]
    · simp [h, max_eq_left (not_lt.mp h)]
  simp only [ddStep, hpk]
  by_cases h2 : pm.2 < (max pm.1 nav - nav) / max pm.1 nav * 100
  · simp [h2, max_eq_right h2.le]
  · simp [h2, max_eq_left (not_lt.mp h2)]

theorem foldl_ddStep (navs : List ℚ) :
    ∀ peak m : ℚ, (navs.foldl ddStep (peak, m)).2 = (ddList navs peak).foldl max m := by
  induction navs with
  | nil => intro peak m; rfl
  | cons n t ih =>
    intro peak m
    rw [List.foldl_cons, ddStep_eq, ddList]
    simp only
    rw [List.foldl_cons, ih]

theorem maxDDraw_eq_spec (nav_history : List (ℤ × ℚ)) (cap : ℚ) :
    maxDDraw nav_history cap = specMaxDD (nav_history.map Prod.snd) cap := by
  unfold maxDDraw specMaxDD
  exact foldl_ddStep _ cap 0

/-- C7 (amended). For every nonempty NAV history the *reported* max
drawdown is the maximum over the series of
`(running peak − NAV)/running peak × 100` (peak initialized to the initial
capital), **rounded half-to-even to 2 decimal places**; the example series
`[100000, 110000, 99000, 105000]` yields exactly 10. -/
theorem c7_max_drawdown :
    (∀ (trades : List Trade) (nav_history : List (ℤ × ℚ)) (cap : ℚ),
        nav_history ≠ [] →
        (calcMetrics trades nav_history cap).map Metrics.max_drawdown_pct
          = some (pyRound (specMaxDD (nav_history.map Prod.snd) cap) 2))
    ∧ (calcMetrics [] [(0, 100000), (1, 110000), (2, 99000), (3, 105000)] 100000).map
        Metrics.max_drawdown_pct = some 10 := by
  constructor
  · intro trades navs cap h
    have hn : navs.isEmpty = false := by
      cases navs
      · exact absurd rfl h
      · rfl
    simp [calcMetrics, hn, maxDDraw_eq_spec]
  · norm_num [calcMetrics, maxDDraw, ddStep, pyRound, rhe, round_eq, max_def,
      List.foldl_cons, List.foldl_nil, Int.floor_eq_iff]

/-- Witness for C7 at a one-point NAV history. -/
theorem c7_max_drawdown_witness :
    (calcMetrics [] [(0, 2)] 3).map Metrics.max_drawdown_pct
      = some (pyRound (specMaxDD ([((0 : ℤ), (2 : ℚ))].map Prod.snd) 3) 2) :=
  c7_max_drawdown.1 [] [(0, 2)] 3 (by simp)

/-- C7 counterexample: the *reported* drawdown is rounded — on the NAV
history `[2]` with initial capital `3` the code reports `33.33`, while the
unrounded maximum of the drawdown series is `100/3`. -/
theorem c7_counterexample :
    (calcMetrics [] [(0, 2)] 3).map Metrics.max_drawdown_pct = some (3333 / 100)
    ∧ specMaxDD [2] 3 = 100 / 3
    ∧ (3333 / 100 : ℚ) ≠ 100 / 3 := by
  refine ⟨?_, ?_, by norm_num⟩
  · norm_num [calcMetrics, maxDDraw, ddStep, pyRound, rhe, round_eq, max_def,
      List.foldl_cons, List.foldl_nil, Int.floor_eq_iff]
  · norm_num [specMaxDD, ddList, max_def, List.foldl_cons, List.foldl_nil]

/-! ## C8: trade statistics -/

theorem avgLoss_nonneg (trades : List Trade) : 0 ≤ avgLoss trades := by
  by_cases h : (losersOf trades).isEmpty <;> simp [avgLoss, h, abs_nonneg]

/-- C8 (amended). For a nonempty trade list (and nonempty NAV history,
without which no metrics are reported): a trade is a winner exactly when
its return percentage is > 0; the reported win rate is
`winners/total × 100` rounded to 2 decimals; the reported profit/loss
ratio is `mean(winner returns)/|mean(loser returns)|` rounded to 2
decimals when `|mean(loser returns)| > 0` and `+∞` otherwise, so it is
`+∞` exactly when the losers' mean return is zero — in particular (but not
only) when there are no losing trades. -/
theorem c8_trade_stats :
    (∀ (trades : List Trade) (t : Trade),
        t ∈ winners trades ↔ (t ∈ trades ∧ 0 < Trade.return_pct t))
    ∧ (∀ (trades : List Trade) (nav_history : List (ℤ × ℚ)) (cap : ℚ),
        trades ≠ [] → nav_history ≠ [] →
          (calcMetrics trades nav_history cap).map Metrics.win_rate_pct
              = some (some (pyRound (((winners trades).length : ℚ) / (trades.length : ℚ) * 100) 2))
            ∧ (calcMetrics trades nav_history cap).map Metrics.profit_loss
              = some (some (if 0 < avgLoss trades then
                  ((pyRound (avgWin trades / avgLoss trades) 2 : ℚ) : WithTop ℚ)
                  else (⊤ : WithTop ℚ)))
            ∧ ((calcMetrics trades nav_history cap).map Metrics.profit_loss
                  = some (some (⊤ : WithTop ℚ)) ↔ avgLoss trades = 0))
    ∧ (∀ trades : List Trade, losersOf trades = [] → avgLoss trades = 0) := by
  refine ⟨?_, ?_, ?_⟩
  · intro trades t
    simp [winners, List.mem_filter]
  · intro trades navs cap ht hn
    have hn' : navs.isEmpty = false := by
      cases navs
      · exact absurd rfl hn
      · rfl
    have ht' : trades.isEmpty = false := by
      cases trades
      · exact absurd rfl ht
      · rfl
    have h2 : (calcMetrics trades navs cap).map Metrics.profit_loss
        = some (some (if 0 < avgLoss trades then
            ((pyRound (avgWin trades / avgLoss trades) 2 : ℚ) : WithTop ℚ)
            else (⊤ : WithTop ℚ))) := by
      simp [calcMetrics, hn', ht']
    refine ⟨by simp [calcMetrics, hn', ht'], h2, ?_⟩
    rw [h2]
    by_cases hl : 0 < avgLoss trades
    · simp only [if_pos hl, Option.some.injEq]
      constructor
      · intro hcontra
        exact absurd hcontra WithTop.coe_ne_top
      · intro h0
        exact absurd h0 (ne_of_gt hl)
    · simp only [if_neg hl]
      exact ⟨fun _ => le_antisymm (not_lt.mp hl) (avgLoss_nonneg trades), fun _ => trivial⟩
  · intro trades h
    simp [avgLoss, h]

/-- Witness for C8: two trades, one +10% winner and one −5% loser: win
rate 50 (rounded), profit/loss ratio 2 (rounded), not `+∞`. -/
theorem c8_trade_stats_witness :
    (calcMetrics [⟨"A", "A", 0, 10, 1, 11, 100⟩, ⟨"B", "B", 0, 10, 1, (9.5 : ℚ), 100⟩]
        [(0, 100)] 100).map Metrics.win_rate_pct
      = some (some (pyRound
          (((winners [⟨"A", "A", 0, 10, 1, 11, 100⟩, ⟨"B", "B", 0, 10, 1, (9.5 : ℚ), 100⟩]).length : ℚ)
            / ((2 : ℕ) : ℚ) * 100) 2)) :=
  ((c8_trade_stats.2.1 [⟨"A", "A", 0, 10, 1, 11, 100⟩, ⟨"B", "B", 0, 10, 1, (9.5 : ℚ), 100⟩]
    [(0, 100)] 100 (by simp) (by simp)).1)

/-- C8 counterexample: a single trade with return exactly 0 is a *loser*
(return ≤ 0), yet the reported profit/loss ratio is `+∞`, because the
losers' mean return is 0 — refuting "+∞ exactly when there are no losing
trades". -/
theorem c8_counterexample :
    Trade.return_pct ⟨"A", "A", 0, 10, 1, 10, 100⟩ ≤ 0
    ∧ losersOf [⟨"A", "A", 0, 10, 1, 10, 100⟩] ≠ []
    ∧ (calcMetrics [⟨"A", "A", 0, 10, 1, 10, 100⟩] [(0, 100)] 100).map Metrics.profit_loss
        = some (some (⊤ : WithTop ℚ)) := by
  refine ⟨by norm_num [Trade.return_pct], ?_, ?_⟩
  · norm_num [losersOf, Trade.return_pct, List.filter_cons]
  · norm_num [calcMetrics, avgLoss, avgWin, losersOf, winners, Trade.return_pct,
      List.filter_cons]

/-! ## C4: same-day ordering and the one-shot equal split -/

theorem admitOne_portfolio (date : ℤ) (st : SimState) (cn : String × String) :
    (admitOne date st cn).portfolio = st.portfolio := by
  unfold admitOne
  split_ifs <;> rfl

theorem stepSignals_portfolio :
    ∀ (sigs : List (String × String)) (s : SimState) (date : ℤ),
      (stepSignals sigs s date).portfolio = s.portfolio := by
  intro sigs
  induction sigs with
  | nil => intro s date; rfl
  | cons c t ih =>
    intro s date
    show (stepSignals t (admitOne date s c) date).portfolio = s.portfolio
    rw [ih, admitOne_portfolio]

/-- C4. Within a simulated day, all collected exits are executed (as
`Portfolio.sell`s) before any entry executes, and the day's portfolio is
the fold of `Portfolio.buy` over the day's entrants applied to the
post-sell portfolio, each buy receiving the *same* allocation
`(cash after the sells) / N`, computed once before the first buy; the
admission and NAV steps that follow do not touch the portfolio. -/
theorem c4_exits_before_entries :
    ∀ (eng : BacktestEngine) (lookup : PriceLookup) (signals : SignalMap)
      (s : SimState) (date : ℤ),
      (simDay eng lookup signals s date).portfolio =
        (let p1 := (exitList eng lookup s.portfolio date).foldl
            (fun p cp => Portfolio.sell p cp.1 cp.2 date) s.portfolio
         let entries := entriesToday eng lookup date s.pending
         let per_stock := p1.cash / (entries.length : ℚ)
         entries.foldl (fun q e => Portfolio.buy q e.1 e.2.1 e.2.2 date per_stock) p1) := by
  intro eng lookup signals s date
  have h1 : (simDay eng lookup signals s date).portfolio
      = (stepEntries eng lookup (stepExits eng lookup s date) date).portfolio := by
    unfold simDay stepNav
    exact stepSignals_portfolio _ _ _
  rw [h1]
  show execEntries _ (entriesToday eng lookup date s.pending) date = _
  unfold execEntries
  by_cases hE : (entriesToday eng lookup date s.pending).isEmpty
  · rw [if_pos hE]
    have hnil : entriesToday eng lookup date s.pending = [] := by
      simpa using hE
    rw [hnil]
    rfl
  · rw [if_neg hE]
    rfl

/-! ## C9: the insufficient-cash rejection is unreachable under the
equal split -/

theorem shares_pos_price_pos {per price : ℚ} (hper : 0 ≤ per)
    (h : 0 < pyInt (per / price / 100) * 100) : 0 < price := by
  by_contra hp
  push_neg at hp
  rcases hp.lt_or_eq with hlt | heq
  · have h1 : per / price ≤ 0 := div_nonpos_iff.mpr (Or.inl ⟨hper, hlt.le⟩)
    have hq : per / price / 100 ≤ 0 :=
      div_nonpos_iff.mpr (Or.inr ⟨h1, by norm_num⟩)
    have h2 := pyInt_nonpos hq
    omega
  · rw [heq] at h
    simp [pyInt] at h

theorem cost_le_alloc {per price : ℚ} (hper : 0 ≤ per)
    (hsh : 0 < pyInt (per / price / 100) * 100) :
    ((pyInt (per / price / 100) * 100 : ℤ) : ℚ) * price ≤ per := by
  have hpr : 0 < price := shares_pos_price_pos hper hsh
  have hx0 : (0 : ℚ) ≤ per / price / 100 := by positivity
  have hx : ((pyInt (per / price / 100) : ℤ) : ℚ) ≤ per / price / 100 := by
    rw [pyInt_eq_floor hx0]
    exact Int.floor_le _
  have hmul : ((pyInt (per / price / 100) : ℤ) : ℚ) * (100 * price)
      ≤ (per / price / 100) * (100 * price) :=
    mul_le_mul_of_nonneg_right hx (by positivity)
  have heq : (per / price / 100) * (100 * price) = per := by
    field_simp
    exact Or.inl (by ring)
  push_cast
  calc ((pyInt (per / price / 100) : ℤ) : ℚ) * 100 * price
      = ((pyInt (per / price / 100) : ℤ) : ℚ) * (100 * price) := by ring
    _ ≤ (per / price / 100) * (100 * price) := hmul
    _ = per := heq

theorem buy_eq_buyU_step {p : Portfolio} {per : ℚ} (code name : String)
    (price : ℚ) (date : ℤ) (hper : 0 ≤ per) (hle : per ≤ p.cash) :
    Portfolio.buy p code name price date per = Portfolio.buyU p code name price date per
      ∧ p.cash - per ≤ (Portfolio.buy p code name price date per).cash := by
  simp only [Portfolio.buy, Portfolio.buyU]
  split_ifs with h1 h2 h3
  · exact ⟨rfl, by linarith⟩
  · exact ⟨rfl, by linarith⟩
  · exfalso
    have hsh : 0 < pyInt (per / price / 100) * 100 := by omega
    have hcost := cost_le_alloc hper hsh
    exact absurd h3 (not_lt.mpr (le_trans hcost hle))
  · refine ⟨rfl, ?_⟩
    have hsh : 0 < pyInt (per / price / 100) * 100 := by omega
    have hcost := cost_le_alloc hper hsh
    simp only
    linarith

theorem foldBuy_unchecked :
    ∀ (E : List (String × String × ℚ)) (p : Portfolio) (per : ℚ) (date : ℤ),
      0 ≤ per → (E.length : ℚ) * per ≤ p.cash →
      E.foldl (fun q e => Portfolio.buy q e.1 e.2.1 e.2.2 date per) p
        = E.foldl (fun q e => Portfolio.buyU q e.1 e.2.1 e.2.2 date per) p := by
  intro E
  induction E with
  | nil => intro p per date _ _; rfl
  | cons e t ih =>
    intro p per date hper hcash
    have hnn : (0 : ℚ) ≤ (t.length : ℚ) * per :=
      mul_nonneg (Nat.cast_nonneg _) hper
    have hexp : (t.length : ℚ) * per + per ≤ p.cash := by
      have hc : ((e :: t).length : ℚ) * per = (t.length : ℚ) * per + per := by
        push_cast [List.length_cons]
        ring
      rw [hc] at hcash
      exact hcash
    have hle : per ≤ p.cash := by linarith
    obtain ⟨heq, hge⟩ := buy_eq_buyU_step e.1 e.2.1 e.2.2 date hper hle
    rw [List.foldl_cons, List.foldl_cons,
      ih (Portfolio.buy p e.1 e.2.1 e.2.2 date per) per date hper (by linarith),
      heq]

/-- C9. In the entry-execution step, with nonnegative cash at split time,
the `cost > cash` rejection branch of `Portfolio.buy` is unreachable:
running the step with that branch deleted (`buyU`) produces the same
portfolio.  (An executed unchecked buy always appends a position, so the
two runs agree exactly when the branch never fires.) -/
theorem c9_buy_reject_unreachable :
    ∀ (p : Portfolio) (entries : List (String × String × ℚ)) (date : ℤ),
      0 ≤ p.cash → execEntries p entries date = execEntriesU p entries date := by
  intro p E date hc
  unfold execEntries execEntriesU
  by_cases hE : E.isEmpty
  · rw [if_pos hE, if_pos hE]
  · rw [if_neg hE, if_neg hE]
    apply foldBuy_unchecked
    · exact div_nonneg hc (Nat.cast_nonneg _)
    · have hlen : (E.length : ℚ) ≠ 0 := by
        cases E with
        | nil => simp at hE
        | cons a t =>
          simp only [List.length_cons]
          push_cast
          positivity
      rw [mul_comm, div_mul_cancel₀ _ hlen]

/-- Witness for C9: one entrant at price 1 with 1000 cash. -/
theorem c9_buy_reject_unreachable_witness :
    execEntries (Portfolio.init 1000) [("A", "Astock", 1)] 0
      = execEntriesU (Portfolio.init 1000) [("A", "Astock", 1)] 0 :=
  c9_buy_reject_unreachable (Portfolio.init 1000) [("A", "Astock", 1)] 0
    (by norm_num [Portfolio.init])

/-! ## C2: at most one slot per instrument -/

theorem has_position_false_iff {p : Portfolio} {c : String} :
    p.has_position c = false ↔ c ∉ posKeys p := by
  unfold Portfolio.has_position posKeys
  rcases h : alookup p.positions c with _ | v
  · simp only [Option.isSome_none, true_iff]
    exact alookup_eq_none.mp h
  · simp only [Option.isSome_some, Bool.true_eq_false, false_iff, not_not]
    exact List.mem_map.mpr ⟨(c, v), alookup_mem h, rfl⟩

theorem posKeys_buy (p : Portfolio) (code name : String) (price : ℚ) (date : ℤ)
    (amount : ℚ) :
    posKeys (p.buy code name price date amount) = posKeys p
      ∨ (posKeys (p.buy code name price date amount) = posKeys p ++ [code]
          ∧ code ∉ posKeys p) := by
  simp only [Portfolio.buy]
  split_ifs with h1 h2 h3
  · exact Or.inl rfl
  · exact Or.inl rfl
  · exact Or.inl rfl
  · refine Or.inr ⟨by simp [posKeys], ?_⟩
    have hnone : alookup p.positions code = none := by
      rcases hh : alookup p.positions code with _ | v
      · rfl
      · exact absurd (by simp [Portfolio.has_position, hh]) h1
    exact alookup_eq_none.mp hnone

theorem posKeys_buy_nodup {p : Portfolio} (h : (posKeys p).Nodup)
    (code name : String) (price : ℚ) (date : ℤ) (amount : ℚ) :
    (posKeys (p.buy code name price date amount)).Nodup := by
  rcases posKeys_buy p code name price date amount with heq | ⟨heq, hnm⟩
  · rwa [heq]
  · rw [heq]
    simp [List.nodup_append, h, hnm]

theorem posKeys_buy_mem {p : Portfolio} {c : String}
    (code name : String) (price : ℚ) (date : ℤ) (amount : ℚ)
    (h : c ∈ posKeys (p.buy code name price date amount)) :
    c ∈ posKeys p ∨ c = code := by
  rcases posKeys_buy p code name price date amount with heq | ⟨heq, _⟩
  · rw [heq] at h
    exact Or.inl h
  · rw [heq] at h
    rcases List.mem_append.mp h with h | h
    · exact Or.inl h
    · exact Or.inr (by simpa using h)

theorem posKeys_sell_sublist (p : Portfolio) (code : String) (price : ℚ) (date : ℤ) :
    List.Sublist (posKeys (p.sell code price date)) (posKeys p) := by
  unfold Portfolio.sell
  split
  · exact List.Sublist.refl _
  · exact ((List.eraseP_sublist _).map Prod.fst)

theorem sellFold_sublist :
    ∀ (l : List (String × ℚ)) (p : Portfolio) (date : ℤ),
      List.Sublist (posKeys (l.foldl (fun q cp => q.sell cp.1 cp.2 date) p)) (posKeys p) := by
  intro l
  induction l with
  | nil => intro p date; exact List.Sublist.refl _
  | cons cp t ih =>
    intro p date
    exact (ih (p.sell cp.1 cp.2 date) date).trans (posKeys_sell_sublist p cp.1 cp.2 date)

theorem buyFold_nodup :
    ∀ (E : List (String × String × ℚ)) (p : Portfolio) (per : ℚ) (date : ℤ),
      (posKeys p).Nodup →
      (posKeys (E.foldl (fun q e => q.buy e.1 e.2.1 e.2.2 date per) p)).Nodup := by
  intro E
  induction E with
  | nil => intro p per date h; exact h
  | cons e t ih =>
    intro p per date h
    exact ih _ per date (posKeys_buy_nodup h e.1 e.2.1 e.2.2 date per)

theorem buyFold_mem :
    ∀ (E : List (String × String × ℚ)) (p : Portfolio) (per : ℚ) (date : ℤ) (c : String),
      c ∈ posKeys (E.foldl (fun q e => q.buy e.1 e.2.1 e.2.2 date per) p) →
      c ∈ posKeys p ∨ c ∈ E.map Prod.fst := by
  intro E
  induction E with
  | nil => intro p per date c h; exact Or.inl h
  | cons e t ih =>
    intro p per date c h
    rcases ih _ per date c h with h | h
    · rcases posKeys_buy_mem e.1 e.2.1 e.2.2 date per h with h | h
      · exact Or.inl h
      · exact Or.inr (by simp [h])
    · exact Or.inr (by simp [h])

theorem execEntries_nodup {p : Portfolio} {E : List (String × String × ℚ)} {date : ℤ}
    (h : (posKeys p).Nodup) : (posKeys (execEntries p E date)).Nodup := by
  unfold execEntries
  split_ifs
  · exact h
  · exact buyFold_nodup E p _ date h

theorem execEntries_mem {p : Portfolio} {E : List (String × String × ℚ)} {date : ℤ}
    {c : String} (h : c ∈ posKeys (execEntries p E date)) :
    c ∈ posKeys p ∨ c ∈ E.map Prod.fst := by
  unfold execEntries at h
  split_ifs at h
  · exact Or.inl h
  · exact buyFold_mem E p _ date c h

theorem keys_bumped (pending : List (String × PendingSignal)) :
    (pending.map (fun kv => (kv.1, bump kv.2))).map Prod.fst = pending.map Prod.fst := by
  induction pending with
  | nil => rfl
  | cons kv t ih => simp [ih]

theorem pendingAfter_keys_sublist (eng : BacktestEngine) (lookup : PriceLookup)
    (date : ℤ) (pending : List (String × PendingSignal)) :
    List.Sublist ((pendingAfter eng lookup date pending).map Prod.fst)
      (pending.map Prod.fst) := by
  unfold pendingAfter
  have h := (List.filter_sublist
    (l := pending.map (fun kv => (kv.1, bump kv.2)))
    (p := fun kv => (entryOf eng lookup date kv).isNone
      && decide (kv.2.days_waited ≤ eng.entry_window))).map Prod.fst
  rwa [keys_bumped] at h

theorem entryOf_key {eng : BacktestEngine} {lookup : PriceLookup} {date : ℤ}
    {kv : String × PendingSignal} {e : String × String × ℚ}
    (h : entryOf eng lookup date kv = some e) : e.1 = kv.1 := by
  unfold entryOf at h
  split at h
  · split_ifs at h
    obtain rfl : (kv.1, kv.2.name, _) = e := by injection h
    rfl
  · exact absurd h (by simp)

theorem mem_entriesToday {eng : BacktestEngine} {lookup : PriceLookup} {date : ℤ}
    {pending : List (String × PendingSignal)} {e : String × String × ℚ}
    (h : e ∈ entriesToday eng lookup date pending) :
    ∃ kv ∈ pending.map (fun kv => (kv.1, bump kv.2)), entryOf eng lookup date kv = some e := by
  unfold entriesToday at h
  exact List.mem_filterMap.mp h

theorem nodup_keys_unique {α : Type} :
    ∀ {l : List (String × α)}, (l.map Prod.fst).Nodup →
      ∀ {c : String} {v w : α}, (c, v) ∈ l → (c, w) ∈ l → v = w := by
  intro l
  induction l with
  | nil => intro _ c v w hv _; simp at hv
  | cons kv t ih =>
    intro h c v w hv hw
    have hhead : kv.1 ∉ t.map Prod.fst := (List.nodup_cons.mp h).1
    have htail := (List.nodup_cons.mp h).2
    rcases List.mem_cons.mp hv with hv | hv
    · rcases List.mem_cons.mp hw with hw | hw
      · rw [← hv] at hw
        injection hw with _ h2
        exact h2.symm
      · exfalso
        have hcm : c ∈ t.map Prod.fst := List.mem_map.mpr ⟨(c, w), hw, rfl⟩
        have hc : kv.1 = c := by rw [← hv]
        rw [hc] at hhead
        exact hhead hcm
    · rcases List.mem_cons.mp hw with hw | hw
      · exfalso
        have hcm : c ∈ t.map Prod.fst := List.mem_map.mpr ⟨(c, v), hv, rfl⟩
        have hc : kv.1 = c := by rw [← hw]
        rw [hc] at hhead
        exact hhead hcm
      · exact ih htail hv hw

theorem atMostOne_stepExits {eng : BacktestEngine} {lookup : PriceLookup}
    {s : SimState} {date : ℤ} (h : AtMostOne s) :
    AtMostOne (stepExits eng lookup s date) := by
  obtain ⟨h1, h2, h3⟩ := h
  refine ⟨(sellFold_sublist _ _ _).nodup h1, h2, ?_⟩
  intro c hc
  exact h3 c ((sellFold_sublist _ _ _).subset hc)

theorem atMostOne_stepEntries {eng : BacktestEngine} {lookup : PriceLookup}
    {s : SimState} {date : ℤ} (h : AtMostOne s) :
    AtMostOne (stepEntries eng lookup s date) := by
  obtain ⟨h1, h2, h3⟩ := h
  refine ⟨execEntries_nodup h1, (pendingAfter_keys_sublist _ _ _ _).nodup h2, ?_⟩
  intro c hcpos hcpend
  have hcpend' : c ∈ pendKeys s := (pendingAfter_keys_sublist _ _ _ _).subset hcpend
  rcases execEntries_mem hcpos with hold | hent
  · exact h3 c hold hcpend'
  · -- c entered today, yet survived in the pending registry: impossible.
    obtain ⟨e, he, rfl⟩ := List.mem_map.mp hent
    obtain ⟨⟨k1, v1⟩, hkv, hek⟩ := mem_entriesToday he
    have hkey : e.1 = k1 := entryOf_key hek
    have hcpend2 : e.1 ∈ (pendingAfter eng lookup date s.pending).map Prod.fst := hcpend
    unfold pendingAfter at hcpend2
    obtain ⟨⟨k2, v2⟩, hkv', hkey'⟩ := List.mem_map.mp hcpend2
    have hkvmem' : (k2, v2) ∈ s.pending.map (fun kv => (kv.1, bump kv.2)) :=
      List.mem_of_mem_filter hkv'
    have hpred := List.of_mem_filter hkv'
    have hnodb : ((s.pending.map (fun kv => (kv.1, bump kv.2))).map Prod.fst).Nodup := by
      rw [keys_bumped]
      exact h2
    have hk2 : k2 = e.1 := hkey'
    have hvv : v1 = v2 := by
      apply nodup_keys_unique hnodb (c := e.1)
      · rw [hkey]
        exact hkv
      · rw [← hk2]
        exact hkvmem'
    have hknone : (entryOf eng lookup date (k2, v2)).isNone = true :=
      (Bool.and_eq_true _ _ ▸ hpred).1
    have hsome : entryOf eng lookup date (k2, v2) = some e := by
      have hk12 : k2 = k1 := hk2.trans hkey
      rw [hk12, ← hvv]
      exact hek
    rw [hsome] at hknone
    simp at hknone

theorem pendKeys_admitOne_mem {date : ℤ} {st : SimState} {cn : String × String}
    {c : String} (h : c ∈ pendKeys (admitOne date st cn)) :
    c ∈ pendKeys st
      ∨ (st.portfolio.has_position cn.1 = false ∧ alookup st.pending cn.1 = none ∧ c = cn.1) := by
  unfold admitOne at h
  split_ifs at h with hcond
  · have h' : c ∈ (st.pending
        ++ [(cn.1, (⟨cn.1, cn.2, date, 0⟩ : PendingSignal))]).map Prod.fst := h
    rw [List.map_append] at h'
    rcases List.mem_append.mp h' with h' | h'
    · exact Or.inl h'
    · exact Or.inr ⟨hcond.1, hcond.2, by simpa using h'⟩
  · exact Or.inl h

theorem atMostOne_admitOne {date : ℤ} {st : SimState} {cn : String × String}
    (h : AtMostOne st) : AtMostOne (admitOne date st cn) := by
  obtain ⟨h1, h2, h3⟩ := h
  unfold admitOne
  split_ifs with hcond
  · refine ⟨h1, ?_, ?_⟩
    · show ((st.pending
          ++ [(cn.1, (⟨cn.1, cn.2, date, 0⟩ : PendingSignal))]).map Prod.fst).Nodup
      rw [List.map_append, List.nodup_append]
      refine ⟨h2, by simp, ?_⟩
      intro a ha ha'
      have ha2 : a = cn.1 := by simpa using ha'
      rw [ha2] at ha
      exact (alookup_eq_none.mp hcond.2) ha
    · intro c hcpos hcpend
      have hcpend' : c ∈ (st.pending
          ++ [(cn.1, (⟨cn.1, cn.2, date, 0⟩ : PendingSignal))]).map Prod.fst := hcpend
      rw [List.map_append] at hcpend'
      rcases List.mem_append.mp hcpend' with h' | h'
      · exact h3 c hcpos h'
      · have hc : c = cn.1 := by simpa using h'
        rw [hc] at hcpos
        exact (has_position_false_iff.mp hcond.1) hcpos
  · exact ⟨h1, h2, h3⟩

theorem atMostOne_stepSignals :
    ∀ (sigs : List (String × String)) (st : SimState) (date : ℤ),
      AtMostOne st → AtMostOne (stepSignals sigs st date) := by
  intro sigs
  induction sigs with
  | nil => intro st date h; exact h
  | cons cn t ih =>
    intro st date h
    exact ih (admitOne date st cn) date (atMostOne_admitOne h)

theorem atMostOne_stepNav {lookup : PriceLookup} {s : SimState} {date : ℤ}
    (h : AtMostOne s) : AtMostOne (stepNav lookup s date) := h

theorem atMostOne_simDay {eng : BacktestEngine} {lookup : PriceLookup}
    {signals : SignalMap} {s : SimState} {date : ℤ} (h : AtMostOne s) :
    AtMostOne (simDay eng lookup signals s date) :=
  atMostOne_stepNav (atMostOne_stepSignals _ _ _ (atMostOne_stepEntries (atMostOne_stepExits h)))

theorem atMostOne_runDays {eng : BacktestEngine} {lookup : PriceLookup}
    {signals : SignalMap} :
    ∀ (dates : List ℤ) (s : SimState), AtMostOne s →
      AtMostOne (runDays eng lookup signals s dates) := by
  intro dates
  induction dates with
  | nil => intro s h; exact h
  | cons d t ih =>
    intro s h
    exact ih (simDay eng lookup signals s d) (atMostOne_simDay h)

theorem atMostOne_initState (cap : ℚ) : AtMostOne (initState cap) := by
  refine ⟨by simp [initState, Portfolio.init, posKeys], by simp [initState, pendKeys], ?_⟩
  intro c hc
  simp [initState, Portfolio.init, posKeys] at hc

theorem pendKeys_mono_admitOne {date : ℤ} {st : SimState} {cn : String × String}
    {c : String} (h : c ∈ pendKeys st) : c ∈ pendKeys (admitOne date st cn) := by
  unfold admitOne
  split_ifs
  · show c ∈ (st.pending ++ _).map Prod.fst
    rw [List.map_append]
    exact List.mem_append.mpr (Or.inl h)
  · exact h

theorem stepSignals_admission :
    ∀ (sigs : List (String × String)) (st : SimState) (date : ℤ) (c : String),
      c ∈ pendKeys (stepSignals sigs st date) →
      c ∈ pendKeys st ∨ (st.portfolio.has_position c = false ∧ c ∉ pendKeys st) := by
  intro sigs
  induction sigs with
  | nil => intro st date c h; exact Or.inl h
  | cons cn t ih =>
    intro st date c h
    rcases ih (admitOne date st cn) date c h with h' | h'
    · rcases pendKeys_admitOne_mem h' with h'' | ⟨hpos, hnone, rfl⟩
      · exact Or.inl h''
      · exact Or.inr ⟨hpos, alookup_eq_none.mp hnone⟩
    · obtain ⟨hpos, hpend⟩ := h'
      rw [admitOne_portfolio] at hpos
      exact Or.inr ⟨hpos, fun hc => hpend (pendKeys_mono_admitOne hc)⟩

/-- C2. From the loop's starting state (empty portfolio, empty pending
registry), after any prefix of trading days and after each intra-day step
(exit evaluation; pending advancement and entry execution; new-signal
admission), the open-position keys and the pending keys are each
duplicate-free and disjoint — every instrument occupies at most one of the
two slots; and a fresh signal is admitted only when the instrument has no
open position and no pending entry. -/
theorem c2_at_most_one :
    ∀ (eng : BacktestEngine) (lookup : PriceLookup) (signals : SignalMap) (cap : ℚ)
      (dates : List ℤ) (date : ℤ),
      AtMostOne (runDays eng lookup signals (initState cap) dates)
      ∧ AtMostOne (stepExits eng lookup
          (runDays eng lookup signals (initState cap) dates) date)
      ∧ AtMostOne (stepEntries eng lookup
          (stepExits eng lookup (runDays eng lookup signals (initState cap) dates) date) date)
      ∧ AtMostOne (stepSignals (signals date)
          (stepEntries eng lookup
            (stepExits eng lookup (runDays eng lookup signals (initState cap) dates) date) date) date)
      ∧ (∀ (s : SimState) (c : String),
          c ∈ pendKeys (stepSignals (signals date) s date) →
            c ∈ pendKeys s ∨ (s.portfolio.has_position c = false ∧ c ∉ pendKeys s)) := by
  intro eng lookup signals cap dates date
  have h0 := @atMostOne_runDays eng lookup signals
    dates (initState cap) (atMostOne_initState cap)
  refine ⟨h0, atMostOne_stepExits h0, atMostOne_stepEntries (atMostOne_stepExits h0),
    atMostOne_stepSignals _ _ _ (atMostOne_stepEntries (atMostOne_stepExits h0)), ?_⟩
  intro s c h
  exact stepSignals_admission _ s date c h

/-- Witness for C2: the admission conjunct applied to the first signal of
a concrete run. -/
theorem c2_at_most_one_witness :
    "A" ∈ pendKeys (initState 100)
      ∨ ((initState 100).portfolio.has_position "A" = false
          ∧ "A" ∉ pendKeys (initState 100)) :=
  (c2_at_most_one ⟨100, 5, 10, 0, 0⟩ (fun _ _ => none)
      (fun d => if d = 0 then [("A", "Astock")] else []) 100 [] 0).2.2.2.2
    (initState 100) "A"
    (by simp [stepSignals, admitOne, initState, Portfolio.init, Portfolio.has_position,
      alookup, pendKeys, List.foldl_cons, List.foldl_nil])

/-! ## C3 / C10: pending-signal evolution -/

theorem alookup_append {α : Type} (l m : List (String × α)) (c : String) :
    alookup (l ++ m) c =
      (match alookup l c with
       | some v => some v
       | none => alookup m c) := by
  induction l with
  | nil => simp [alookup]
  | cons kv t ih =>
    simp only [List.cons_append, alookup]
    split_ifs with h
    · rfl
    · exact ih

theorem alookup_bumped (pending : List (String × PendingSignal)) (c : String) :
    alookup (pending.map (fun kv => (kv.1, bump kv.2))) c
      = (alookup pending c).map bump := by
  induction pending with
  | nil => rfl
  | cons kv t ih =>
    simp only [List.map_cons, alookup]
    split_ifs with h
    · rfl
    · exact ih

theorem alookup_filter_of_nodup {α : Type} :
    ∀ {l : List (String × α)}, (l.map Prod.fst).Nodup →
      ∀ (pred : String × α → Bool) (c : String),
        alookup (l.filter pred) c =
          (match alookup l c with
           | some v => if pred (c, v) then some v else none
           | none => none) := by
  intro l
  induction l with
  | nil => intro _ pred c; rfl
  | cons kv t ih =>
    intro h pred c
    have hhead : kv.1 ∉ t.map Prod.fst := (List.nodup_cons.mp h).1
    have htail := (List.nodup_cons.mp h).2
    by_cases hc : kv.1 = c
    · subst hc
      rw [List.filter_cons]
      simp only [alookup, if_pos rfl]
      by_cases hp : pred kv
      · rw [if_pos hp]
        simp only [alookup, if_pos rfl]
        simp [hp]
      · rw [if_neg hp]
        have hnone : alookup (t.filter pred) kv.1 = none := by
          apply alookup_eq_none.mpr
          intro hmem
          exact hhead (((List.filter_sublist t).map Prod.fst).subset hmem)
        rw [hnone]
        simp [hp]
    · rw [List.filter_cons]
      simp only [alookup, if_neg hc]
      by_cases hp : pred kv
      · rw [if_pos hp]
        simp only [alookup, if_neg hc]
        exact ih htail pred c
      · rw [if_neg hp]
        exact ih htail pred c

theorem pendKeys_nodup_admitOne {date : ℤ} {st : SimState} {cn : String × String}
    (h : (pendKeys st).Nodup) : (pendKeys (admitOne date st cn)).Nodup := by
  unfold admitOne
  split_ifs with hcond
  · show ((st.pending
        ++ [(cn.1, (⟨cn.1, cn.2, date, 0⟩ : PendingSignal))]).map Prod.fst).Nodup
    rw [List.map_append, List.nodup_append]
    refine ⟨h, by simp, ?_⟩
    intro a ha ha'
    have ha2 : a = cn.1 := by simpa using ha'
    rw [ha2] at ha
    exact (alookup_eq_none.mp hcond.2) ha
  · exact h

theorem pendKeys_nodup_stepSignals :
    ∀ (sigs : List (String × String)) (st : SimState) (date : ℤ),
      (pendKeys st).Nodup → (pendKeys (stepSignals sigs st date)).Nodup := by
  intro sigs
  induction sigs with
  | nil => intro st date h; exact h
  | cons cn t ih => intro st date h; exact ih _ date (pendKeys_nodup_admitOne h)

theorem alookup_admitOne_of_some {date : ℤ} {st : SimState} {cn : String × String}
    {code : String} {v : PendingSignal} (h : alookup st.pending code = some v) :
    alookup (admitOne date st cn).pending code = some v := by
  unfold admitOne
  split_ifs with hcond
  · show alookup (st.pending ++ _) code = some v
    rw [alookup_append, h]
  · exact h

theorem alookup_stepSignals_of_some :
    ∀ (sigs : List (String × String)) (st : SimState) (date : ℤ)
      (code : String) (v : PendingSignal),
      alookup st.pending code = some v →
      alookup (stepSignals sigs st date).pending code = some v := by
  intro sigs
  induction sigs with
  | nil => intro st date code v h; exact h
  | cons cn t ih =>
    intro st date code v h
    exact ih _ date code v (alookup_admitOne_of_some h)

theorem code_not_in_entries {eng : BacktestEngine} {lookup : PriceLookup} {date : ℤ}
    {pending : List (String × PendingSignal)} {code : String} {sig : PendingSignal}
    (hnd : (pending.map Prod.fst).Nodup)
    (hl : alookup pending code = some sig)
    (hne : entryOf eng lookup date (code, bump sig) = none) :
    ∀ e ∈ entriesToday eng lookup date pending, e.1 ≠ code := by
  intro e he hc
  obtain ⟨⟨k1, v1⟩, hkv, hek⟩ := mem_entriesToday he
  have hkey : e.1 = k1 := entryOf_key hek
  have hk : k1 = code := by rw [← hkey, hc]
  subst hk
  have hmem2 : (k1, bump sig) ∈ pending.map (fun kv => (kv.1, bump kv.2)) := by
    apply alookup_mem
    rw [alookup_bumped, hl]
    rfl
  have hnd2 : ((pending.map (fun kv => (kv.1, bump kv.2))).map Prod.fst).Nodup := by
    rw [keys_bumped]
    exact hnd
  have hv : v1 = bump sig := nodup_keys_unique hnd2 hkv hmem2
  rw [hv] at hek
  exact Option.noConfusion (hek.symm.trans hne)

theorem stepEntries_pending_lookup {eng : BacktestEngine} {lookup : PriceLookup}
    {date : ℤ} {s : SimState} {code : String} {sig : PendingSignal}
    (hnd : (pendKeys s).Nodup) (hp : alookup s.pending code = some sig)
    (hne : entryOf eng lookup date (code, bump sig) = none) :
    alookup (stepEntries eng lookup s date).pending code =
      (if (bump sig).days_waited ≤ eng.entry_window then some (bump sig) else none) := by
  show alookup (pendingAfter eng lookup date s.pending) code = _
  unfold pendingAfter
  have hbn : ((s.pending.map (fun kv => (kv.1, bump kv.2))).map Prod.fst).Nodup := by
    rw [keys_bumped]
    exact hnd
  rw [alookup_filter_of_nodup hbn, alookup_bumped, hp]
  simp [hne]

theorem posKeys_stepEntries_not_mem {eng : BacktestEngine} {lookup : PriceLookup}
    {date : ℤ} {s : SimState} {code : String} {sig : PendingSignal}
    (hnd : (pendKeys s).Nodup) (hp : alookup s.pending code = some sig)
    (hne : entryOf eng lookup date (code, bump sig) = none)
    (hpos : code ∉ posKeys s.portfolio) :
    code ∉ posKeys (stepEntries eng lookup s date).portfolio := by
  intro hmem
  have hmem' : code ∈ posKeys (execEntries s.portfolio
      (entriesToday eng lookup date s.pending) date) := hmem
  rcases execEntries_mem hmem' with h | h
  · exact hpos h
  · obtain ⟨e, he, hfst⟩ := List.mem_map.mp h
    exact code_not_in_entries hnd hp hne e he hfst

theorem noEntryBar_entryOf {eng : BacktestEngine} {lookup : PriceLookup}
    {code : String} {date : ℤ} (hbar : noEntryBar eng lookup code date)
    (sig : PendingSignal) :
    entryOf eng lookup date (code, bump sig) = none := by
  unfold entryOf
  cases hl : lookup code date with
  | none => simp [hl]
  | some row => simp [hl, hbar row hl]

theorem simDay_pending_hold {eng : BacktestEngine} {lookup : PriceLookup}
    {signals : SignalMap} {s : SimState} {date : ℤ} {code : String}
    {sig : PendingSignal}
    (hnd : (pendKeys s).Nodup)
    (hp : alookup s.pending code = some sig)
    (hpos : code ∉ posKeys s.portfolio)
    (hbar : noEntryBar eng lookup code date)
    (hwin : sig.days_waited + 1 ≤ eng.entry_window) :
    (pendKeys (simDay eng lookup signals s date)).Nodup
      ∧ alookup (simDay eng lookup signals s date).pending code = some (bump sig)
      ∧ code ∉ posKeys (simDay eng lookup signals s date).portfolio := by
  have hne := noEntryBar_entryOf hbar sig
  -- the exit step leaves pending untouched and only shrinks positions
  have hnd1 : (pendKeys (stepExits eng lookup s date)).Nodup := hnd
  have hp1 : alookup (stepExits eng lookup s date).pending code = some sig := hp
  have hpos1 : code ∉ posKeys (stepExits eng lookup s date).portfolio := by
    intro hmem
    exact hpos ((sellFold_sublist _ _ _).subset hmem)
  -- the entry step bumps the wait counter and keeps the signal pending
  have hp2 : alookup (stepEntries eng lookup (stepExits eng lookup s date) date).pending code
      = some (bump sig) := by
    rw [stepEntries_pending_lookup hnd1 hp1 hne]
    have : (bump sig).days_waited ≤ eng.entry_window := by
      simpa [bump] using hwin
    rw [if_pos this]
  have hnd2 : (pendKeys (stepEntries eng lookup (stepExits eng lookup s date) date)).Nodup :=
    (pendingAfter_keys_sublist _ _ _ _).nodup hnd1
  have hpos2 : code ∉ posKeys (stepEntries eng lookup (stepExits eng lookup s date) date).portfolio :=
    posKeys_stepEntries_not_mem hnd1 hp1 hne hpos1
  -- admission and the NAV snapshot change neither fact
  refine ⟨?_, ?_, ?_⟩
  · exact pendKeys_nodup_stepSignals _ _ _ hnd2
  · exact alookup_stepSignals_of_some _ _ _ _ _ hp2
  · show code ∉ posKeys (stepSignals (signals date) _ date).portfolio
    rw [stepSignals_portfolio]
    exact hpos2

theorem stepDay_pending_expire {eng : BacktestEngine} {lookup : PriceLookup}
    {s : SimState} {date : ℤ} {code : String} {sig : PendingSignal}
    (hnd : (pendKeys s).Nodup)
    (hp : alookup s.pending code = some sig)
    (hpos : code ∉ posKeys s.portfolio)
    (hbar : noEntryBar eng lookup code date)
    (hwin : eng.entry_window < sig.days_waited + 1) :
    code ∉ pendKeys (stepEntries eng lookup (stepExits eng lookup s date) date)
      ∧ code ∉ posKeys
          (stepEntries eng lookup (stepExits eng lookup s date) date).portfolio := by
  have hne := noEntryBar_entryOf hbar sig
  have hnd1 : (pendKeys (stepExits eng lookup s date)).Nodup := hnd
  have hp1 : alookup (stepExits eng lookup s date).pending code = some sig := hp
  have hpos1 : code ∉ posKeys (stepExits eng lookup s date).portfolio := by
    intro hmem
    exact hpos ((sellFold_sublist _ _ _).subset hmem)
  constructor
  · have h2 : alookup (stepEntries eng lookup (stepExits eng lookup s date) date).pending code
        = none := by
      rw [stepEntries_pending_lookup hnd1 hp1 hne]
      have : ¬ (bump sig).days_waited ≤ eng.entry_window := by
        simp only [bump]
        omega
      rw [if_neg this]
    exact alookup_eq_none.mp h2
  · exact posKeys_stepEntries_not_mem hnd1 hp1 hne hpos1

theorem runDays_pending_hold {eng : BacktestEngine} {lookup : PriceLookup}
    {signals : SignalMap} {code : String} :
    ∀ (ds : List ℤ) (s : SimState) (sig : PendingSignal),
      (pendKeys s).Nodup → alookup s.pending code = some sig →
      code ∉ posKeys s.portfolio →
      (∀ d ∈ ds, noEntryBar eng lookup code d) →
      sig.days_waited + ds.length ≤ eng.entry_window →
      (pendKeys (runDays eng lookup signals s ds)).Nodup
        ∧ alookup (runDays eng lookup signals s ds).pending code
            = some { sig with days_waited := sig.days_waited + ds.length }
        ∧ code ∉ posKeys (runDays eng lookup signals s ds).portfolio := by
  intro ds
  induction ds with
  | nil =>
    intro s sig h1 h2 h3 _ _
    refine ⟨h1, ?_, h3⟩
    obtain ⟨c0, n0, sd0, dw0⟩ := sig
    simpa using h2
  | cons d ds ih =>
    intro s sig h1 h2 h3 hbar hwin
    have hbd : noEntryBar eng lookup code d := hbar d (List.mem_cons_self _ _)
    have hw1 : sig.days_waited + 1 ≤ eng.entry_window := by
      simp only [List.length_cons] at hwin
      push_cast at hwin
      omega
    obtain ⟨h1', h2', h3'⟩ := simDay_pending_hold h1 h2 h3 hbd hw1
    have hbar' : ∀ x ∈ ds, noEntryBar eng lookup code x :=
      fun x hx => hbar x (List.mem_cons_of_mem _ hx)
    have hwin' : (bump sig).days_waited + ds.length ≤ eng.entry_window := by
      simp only [bump, List.length_cons] at hwin ⊢
      push_cast at hwin ⊢
      omega
    obtain ⟨ha, hb, hc⟩ := ih (simDay eng lookup signals s d) (bump sig) h1' h2' h3' hbar' hwin'
    refine ⟨ha, ?_, hc⟩
    show alookup (runDays eng lookup signals (simDay eng lookup signals s d) ds).pending code = _
    rw [hb]
    obtain ⟨c0, n0, sd0, dw0⟩ := sig
    simp only [bump, PendingSignal.mk.injEq, Option.some.injEq, List.length_cons,
      true_and]
    push_cast
    ring

/-- C3 (amended). With `entry_window = 5`, a pending signal with a zeroed
wait counter that meets no bearish candle on any of the **six** trading
days that follow is removed by the pending-queue advancement of the sixth
day, and the instrument has no open position at that point — the entry
test of each of those days failed, so no position was ever created from
the signal.  (As originally stated, with five days, the claim is false:
the signal survives all five days and can still enter on the sixth; see
the counterexample.) -/
theorem c3_entry_window_six_days :
    ∀ (eng : BacktestEngine) (lookup : PriceLookup) (signals : SignalMap)
      (s : SimState) (code : String) (sig : PendingSignal) (ds : List ℤ) (dlast : ℤ),
      eng.entry_window = 5 →
      (pendKeys s).Nodup →
      alookup s.pending code = some sig →
      sig.days_waited = 0 →
      code ∉ posKeys s.portfolio →
      ds.length = 5 →
      (∀ d ∈ ds, noEntryBar eng lookup code d) →
      noEntryBar eng lookup code dlast →
      code ∉ pendKeys (stepEntries eng lookup
          (stepExits eng lookup (runDays eng lookup signals s ds) dlast) dlast)
        ∧ code ∉ posKeys (stepEntries eng lookup
            (stepExits eng lookup (runDays eng lookup signals s ds) dlast) dlast).portfolio := by
  intro eng lookup signals s code sig ds dlast hw hnd hp hw0 hpos hlen hbars hblast
  obtain ⟨h1', h2', h3'⟩ := runDays_pending_hold ds s sig hnd hp hpos hbars
    (by rw [hw0, hlen, hw]; norm_num)
  exact stepDay_pending_expire h1' h2' h3' hblast
    (by simp only [hw0, hlen, hw]; norm_num)

/-- Witness for C3: a suspended instrument (no bars at all) with a fresh
pending signal and `entry_window = 5`. -/
theorem c3_entry_window_six_days_witness :
    "A" ∉ pendKeys (stepEntries ⟨100000, 5, 10, 0, 0⟩ (fun _ _ => none)
        (stepExits ⟨100000, 5, 10, 0, 0⟩ (fun _ _ => none)
          (runDays ⟨100000, 5, 10, 0, 0⟩ (fun _ _ => none) (fun _ => [])
            ⟨Portfolio.init 100, [("A", ⟨"A", "A", 0, 0⟩)], []⟩ [1, 2, 3, 4, 5]) 6) 6)
      ∧ "A" ∉ posKeys (stepEntries ⟨100000, 5, 10, 0, 0⟩ (fun _ _ => none)
          (stepExits ⟨100000, 5, 10, 0, 0⟩ (fun _ _ => none)
            (runDays ⟨100000, 5, 10, 0, 0⟩ (fun _ _ => none) (fun _ => [])
              ⟨Portfolio.init 100, [("A", ⟨"A", "A", 0, 0⟩)], []⟩ [1, 2, 3, 4, 5]) 6) 6).portfolio :=
  c3_entry_window_six_days ⟨100000, 5, 10, 0, 0⟩ (fun _ _ => none) (fun _ => [])
    ⟨Portfolio.init 100, [("A", ⟨"A", "A", 0, 0⟩)], []⟩ "A" ⟨"A", "A", 0, 0⟩
    [1, 2, 3, 4, 5] 6 rfl (by simp [pendKeys]) (by simp [alookup]) rfl
    (by simp [posKeys, Portfolio.init]) rfl
    (fun d _ row hrow => Option.noConfusion hrow)
    (fun row hrow => Option.noConfusion hrow)

/-- C10. The wait counter of a pending signal is incremented once per
global trading day whether or not the instrument has a bar that day: for a
suspended instrument (no bars at all), after the `k`-th of the following
global trading days the counter reads exactly `k`, and on global trading
day `entry_window + 1` the signal expires out of the pending registry by
the pending-queue advancement step, the instrument never having entered. -/
theorem c10_global_day_counter :
    ∀ (eng : BacktestEngine) (lookup : PriceLookup) (signals : SignalMap)
      (s : SimState) (code : String) (sig : PendingSignal) (ds : List ℤ)
      (dlast : ℤ) (w : ℕ),
      eng.entry_window = (w : ℤ) →
      (pendKeys s).Nodup →
      alookup s.pending code = some sig →
      sig.days_waited = 0 →
      code ∉ posKeys s.portfolio →
      ds.length = w →
      (∀ d : ℤ, lookup code d = none) →
      (∀ k : ℕ, k ≤ w →
          alookup (runDays eng lookup signals s (ds.take k)).pending code
            = some { sig with days_waited := (k : ℤ) })
        ∧ code ∉ pendKeys (stepEntries eng lookup
            (stepExits eng lookup (runDays eng lookup signals s ds) dlast) dlast)
        ∧ code ∉ posKeys (stepEntries eng lookup
            (stepExits eng lookup (runDays eng lookup signals s ds) dlast) dlast).portfolio := by
  intro eng lookup signals s code sig ds dlast w hw hnd hp hw0 hpos hlen hnob
  have hbar : ∀ d : ℤ, noEntryBar eng lookup code d := by
    intro d row hrow
    rw [hnob d] at hrow
    exact Option.noConfusion hrow
  refine ⟨?_, ?_⟩
  · intro k hk
    have htk : (ds.take k).length = k := by
      rw [List.length_take, hlen]
      omega
    have h := @runDays_pending_hold eng lookup signals code (ds.take k) s sig hnd hp hpos
      (fun d _ => hbar d)
      (by rw [hw0, htk, hw]; omega)
    rw [h.2.1, hw0, htk]
    simp
  · have h := @runDays_pending_hold eng lookup signals code ds s sig hnd hp hpos
      (fun d _ => hbar d)
      (by rw [hw0, hlen, hw]; omega)
    exact stepDay_pending_expire h.1 h.2.1 h.2.2 (hbar dlast)
      (by
        rw [hw]
        show (w : ℤ) < sig.days_waited + (ds.length : ℤ) + 1
        rw [hw0, hlen]
        omega)

/-- Witness for C10: a suspended instrument with `entry_window = 5`,
sampled at `k = 3` waited days. -/
theorem c10_global_day_counter_witness :
    alookup (runDays ⟨100000, 5, 10, 0, 0⟩ (fun _ _ => none) (fun _ => [])
        ⟨Portfolio.init 100, [("A", ⟨"A", "A", 0, 0⟩)], []⟩
        (([1, 2, 3, 4, 5] : List ℤ).take 3)).pending "A"
      = some ⟨"A", "A", 0, 3⟩ :=
  (c10_global_day_counter ⟨100000, 5, 10, 0, 0⟩ (fun _ _ => none) (fun _ => [])
      ⟨Portfolio.init 100, [("A", ⟨"A", "A", 0, 0⟩)], []⟩ "A" ⟨"A", "A", 0, 0⟩
      [1, 2, 3, 4, 5] 6 5 rfl (by simp [pendKeys]) (by simp [alookup]) rfl
      (by simp [posKeys, Portfolio.init]) rfl (fun _ => rfl)).1 3 (by norm_num)

/-- C3 counterexample: with `entry_window = 5`, instrument "A" signals on
day 0 and none of the 5 following trading days has a bearish candle — yet
the signal is *not* dropped without a position: the 6th following day is
bearish, the signal enters there, and a position for "A" exists. -/
theorem c3_counterexample :
    (([1, 2, 3, 4, 5] : List ℤ).all (fun d => !(bearishOn engX lkX "A" d))) = true
    ∧ (runDays engX lkX sgX (initState 100000)
        [0, 1, 2, 3, 4, 5, 6]).portfolio.has_position "A" = true := by
  constructor
  · norm_num [bearishOn, lkX, engX, BacktestEngine.strategy,
      EntryExitStrategy.is_bearish_candle, List.all_cons]
  · have h0 : simDay engX lkX sgX (initState 100000) 0 =
        ⟨⟨100000, 100000, [], []⟩, [("A", ⟨"A", "Astock", 0, 0⟩)], [(0, 100000)]⟩ := by
      norm_num [simDay, stepNav, stepSignals, stepEntries, stepExits, admitOne,
        execEntries, entriesToday, pendingAfter, entryOf, exitList, bump, initState,
        Portfolio.init, Portfolio.buy, Portfolio.sell, Portfolio.has_position,
        Portfolio.get_nav, alookup, aerase, BacktestEngine.strategy,
        EntryExitStrategy.is_bearish_candle, EntryExitStrategy.should_exit, pyInt,
        engX, lkX, sgX, List.filterMap_cons, List.filterMap_nil, List.foldl_cons,
        List.foldl_nil, Int.floor_eq_iff]
    have h1 : simDay engX lkX sgX
        ⟨⟨100000, 100000, [], []⟩, [("A", ⟨"A", "Astock", 0, 0⟩)], [(0, 100000)]⟩ 1 =
        ⟨⟨100000, 100000, [], []⟩, [("A", ⟨"A", "Astock", 0, 1⟩)],
          [(0, 100000), (1, 100000)]⟩ := by
      norm_num [simDay, stepNav, stepSignals, stepEntries, stepExits, admitOne,
        execEntries, entriesToday, pendingAfter, entryOf, exitList, bump, initState,
        Portfolio.init, Portfolio.buy, Portfolio.sell, Portfolio.has_position,
        Portfolio.get_nav, alookup, aerase, BacktestEngine.strategy,
        EntryExitStrategy.is_bearish_candle, EntryExitStrategy.should_exit, pyInt,
        engX, lkX, sgX, List.filterMap_cons, List.filterMap_nil, List.foldl_cons,
        List.foldl_nil, Int.floor_eq_iff]
    have h2 : simDay engX lkX sgX
        ⟨⟨100000, 100000, [], []⟩, [("A", ⟨"A", "Astock", 0, 1⟩)],
          [(0, 100000), (1, 100000)]⟩ 2 =
        ⟨⟨100000, 100000, [], []⟩, [("A", ⟨"A", "Astock", 0, 2⟩)],
          [(0, 100000), (1, 100000), (2, 100000)]⟩ := by
      norm_num [simDay, stepNav, stepSignals, stepEntries, stepExits, admitOne,
        execEntries, entriesToday, pendingAfter, entryOf, exitList, bump, initState,
        Portfolio.init, Portfolio.buy, Portfolio.sell, Portfolio.has_position,
        Portfolio.get_nav, alookup, aerase, BacktestEngine.strategy,
        EntryExitStrategy.is_bearish_candle, EntryExitStrategy.should_exit, pyInt,
        engX, lkX, sgX, List.filterMap_cons, List.filterMap_nil, List.foldl_cons,
        List.foldl_nil, Int.floor_eq_iff]
    have h3 : simDay engX lkX sgX
        ⟨⟨100000, 100000, [], []⟩, [("A", ⟨"A", "Astock", 0, 2⟩)],
          [(0, 100000), (1, 100000), (2, 100000)]⟩ 3 =
        ⟨⟨100000, 100000, [], []⟩, [("A", ⟨"A", "Astock", 0, 3⟩)],
          [(0, 100000), (1, 100000), (2, 100000), (3, 100000)]⟩ := by
      norm_num [simDay, stepNav, stepSignals, stepEntries, stepExits, admitOne,
        execEntries, entriesToday, pendingAfter, entryOf, exitList, bump, initState,
        Portfolio.init, Portfolio.buy, Portfolio.sell, Portfolio.has_position,
        Portfolio.get_nav, alookup, aerase, BacktestEngine.strategy,
        EntryExitStrategy.is_bearish_candle, EntryExitStrategy.should_exit, pyInt,
        engX, lkX, sgX, List.filterMap_cons, List.filterMap_nil, List.foldl_cons,
        List.foldl_nil, Int.floor_eq_iff]
    have h4 : simDay engX lkX sgX
        ⟨⟨100000, 100000, [], []⟩, [("A", ⟨"A", "Astock", 0, 3⟩)],
          [(0, 100000), (1, 100000), (2, 100000), (3, 100000)]⟩ 4 =
        ⟨⟨100000, 100000, [], []⟩, [("A", ⟨"A", "Astock", 0, 4⟩)],
          [(0, 100000), (1, 100000), (2, 100000), (3, 100000), (4, 100000)]⟩ := by
      norm_num [simDay, stepNav, stepSignals, stepEntries, stepExits, admitOne,
        execEntries, entriesToday, pendingAfter, entryOf, exitList, bump, initState,
        Portfolio.init, Portfolio.buy, Portfolio.sell, Portfolio.has_position,
        Portfolio.get_nav, alookup, aerase, BacktestEngine.strategy,
        EntryExitStrategy.is_bearish_candle, EntryExitStrategy.should_exit, pyInt,
        engX, lkX, sgX, List.filterMap_cons, List.filterMap_nil, List.foldl_cons,
        List.foldl_nil, Int.floor_eq_iff]
    have h5 : simDay engX lkX sgX
        ⟨⟨100000, 100000, [], []⟩, [("A", ⟨"A", "Astock", 0, 4⟩)],
          [(0, 100000), (1, 100000), (2, 100000), (3, 100000), (4, 100000)]⟩ 5 =
        ⟨⟨100000, 100000, [], []⟩, [("A", ⟨"A", "Astock", 0, 5⟩)],
          [(0, 100000), (1, 100000), (2, 100000), (3, 100000), (4, 100000),
            (5, 100000)]⟩ := by
      norm_num [simDay, stepNav, stepSignals, stepEntries, stepExits, admitOne,
        execEntries, entriesToday, pendingAfter, entryOf, exitList, bump, initState,
        Portfolio.init, Portfolio.buy, Portfolio.sell, Portfolio.has_position,
        Portfolio.get_nav, alookup, aerase, BacktestEngine.strategy,
        EntryExitStrategy.is_bearish_candle, EntryExitStrategy.should_exit, pyInt,
        engX, lkX, sgX, List.filterMap_cons, List.filterMap_nil, List.foldl_cons,
        List.foldl_nil, Int.floor_eq_iff]
    have h6 : simDay engX lkX sgX
        ⟨⟨100000, 100000, [], []⟩, [("A", ⟨"A", "Astock", 0, 5⟩)],
          [(0, 100000), (1, 100000), (2, 100000), (3, 100000), (4, 100000),
            (5, 100000)]⟩ 6 =
        ⟨⟨100000, 0, [("A", ⟨"A", "Astock", 6, 10, 10000⟩)], []⟩, [],
          [(0, 100000), (1, 100000), (2, 100000), (3, 100000), (4, 100000),
            (5, 100000), (6, 100000)]⟩ := by
      norm_num [simDay, stepNav, stepSignals, stepEntries, stepExits, admitOne,
        execEntries, entriesToday, pendingAfter, entryOf, exitList, bump, initState,
        Portfolio.init, Portfolio.buy, Portfolio.sell, Portfolio.has_position,
        Portfolio.get_nav, alookup, aerase, BacktestEngine.strategy,
        EntryExitStrategy.is_bearish_candle, EntryExitStrategy.should_exit, pyInt,
        engX, lkX, sgX, List.filterMap_cons, List.filterMap_nil, List.foldl_cons,
        List.foldl_nil, Int.floor_eq_iff]
    show ([(0 : ℤ), 1, 2, 3, 4, 5, 6].foldl (simDay engX lkX sgX)
        (initState 100000)).portfolio.has_position "A" = true
    rw [List.foldl_cons, h0, List.foldl_cons, h1, List.foldl_cons, h2,
      List.foldl_cons, h3, List.foldl_cons, h4, List.foldl_cons, h5,
      List.foldl_cons, h6, List.foldl_nil]
    norm_num [Portfolio.has_position, alookup]

end Backtest
